import Mathlib

/-!
Verification development for the vscode-sml repository: the regex
pattern-composition layer and grammar rules of
`src/language/sml/grammar.ts`, a model of the region-tokenization engine
the grammar is written for, and the diagnostic pipeline of
`src/extension.ts` (Transducer, diagnostic pattern, collation loop).

Regex pattern strings are embedded as an abstract syntax tree `Rx` whose
constructors correspond one-to-one to the regex constructs the source
emits (Oniguruma / JavaScript flavor), together with an executable
matching function `mEnds` giving every end offset of a match that starts
at a given offset of the subject text.  Texts are `List Char`.
-/

/-- Whitespace for the regex `\s` / `[:space:]` classes (ASCII). -/
def isSpaceC (c : Char) : Bool :=
  c = ' ' || c = '\t' || c = '\n' || c = '\r' || c = '\x0b' || c = '\x0c'

/-- Word-constituent characters for `\b`, `\w` and `[:word:]`: letters, digits, `_`. -/
def isWordC (c : Char) : Bool :=
  c.isAlphanum || c = '_'

/-- Items that may appear inside a regex character class `[...]`. -/
inductive CCItem where
  /-- a plain character -/
  | iChr (c : Char)
  /-- a backslash-escaped character, e.g. `\-`, `\\`, `\s`, `\d` -/
  | iEsc (c : Char)
  /-- a POSIX named class, e.g. `[:word:]` -/
  | iNamed (n : String)
deriving DecidableEq, Repr

/-- Meaning of a POSIX named class on a character (ASCII readings). -/
def namedMatch (n : String) (x : Char) : Bool :=
  if n = "alnum" then x.isAlphanum
  else if n = "alpha" then x.isAlpha
  else if n = "digit" then x.isDigit
  else if n = "lower" then x.isLower
  else if n = "space" then isSpaceC x
  else if n = "upper" then x.isUpper
  else if n = "word" then isWordC x
  else false

/-- Meaning of a class escape `\c` on a character: `\s`, `\d`, `\w` are the
usual shorthand classes, any other escaped character is that literal. -/
def escMatch (c x : Char) : Bool :=
  if c = 's' then isSpaceC x
  else if c = 'd' then x.isDigit
  else if c = 'w' then isWordC x
  else x = c

def itemMatch : CCItem → Char → Bool
  | .iChr c, x => x = c
  | .iEsc c, x => escMatch c x
  | .iNamed n, x => namedMatch n x

/-- Does character `x` satisfy the class `[items]` (or `[^items]` when `neg`)? -/
def clsMatch (neg : Bool) (items : List CCItem) (x : Char) : Bool :=
  if neg then !(items.any (itemMatch · x)) else items.any (itemMatch · x)

/-- Abstract syntax of the regex fragment the grammar source emits.
`ch c` covers both a plain character and a backslash-escaped literal
character (`\(`, `\*`, ...), which match identically. -/
inductive Rx where
  /-- matches nothing (the empty alternation) -/
  | fail
  /-- matches the empty string -/
  | eps
  /-- a single literal character -/
  | ch (c : Char)
  /-- a character class `[items]`, negated when `neg` -/
  | cls (neg : Bool) (items : List CCItem)
  /-- the word-boundary assertion `\b` -/
  | wordB
  /-- the line-start anchor `^` -/
  | bol
  /-- the line-end anchor `$` -/
  | eol
  /-- concatenation -/
  | cat (a b : Rx)
  /-- alternation `a|b` -/
  | orr (a b : Rx)
  /-- `a*` -/
  | star (a : Rx)
  /-- `a+` -/
  | plus (a : Rx)
  /-- `a?` -/
  | quest (a : Rx)
  /-- non-capturing group `(?:a)` -/
  | grpP (a : Rx)
  /-- capturing group `(a)` (capture indices are not tracked) -/
  | capP (a : Rx)
  /-- lookahead `(?=a)` -/
  | la (a : Rx)
  /-- negative lookahead `(?!a)` -/
  | nla (a : Rx)
  /-- lookbehind `(?<=a)` -/
  | lb (a : Rx)
  /-- negative lookbehind `(?<!a)` -/
  | nlb (a : Rx)
deriving DecidableEq, Repr

/-- Is the character at offset `i` of `t` a word constituent? -/
def isWordAt (t : List Char) (i : Nat) : Bool :=
  match t[i]? with
  | some c => isWordC c
  | none => false

/-- Word boundary: `\b` holds at `i` iff exactly one side of the position is a word character. -/
def wordBoundaryAt (t : List Char) (i : Nat) : Bool :=
  (if i = 0 then false else isWordAt t (i - 1)) != isWordAt t i

/-- Line start: `^` holds at the start of the text or right after a newline. -/
def bolAt (t : List Char) (i : Nat) : Bool :=
  i = 0 || (match t[i - 1]? with
            | some c => c = '\n'
            | none => false)

/-- Line end: `$` holds at the end of the text or right before a newline. -/
def eolAt (t : List Char) (i : Nat) : Bool :=
  i = t.length || (match t[i]? with
                   | some c => c = '\n'
                   | none => false)

/-- End offsets reachable by iterating a one-step matcher `f` zero or more
times from `i`.  Iterations that consume nothing cannot change the end
offset of a `*` match, so only strictly advancing steps are chained;
`fuel` bounds the chain length (`t.length + 1` suffices, as offsets are
strictly increasing and bounded by `t.length`). -/
def starIter (f : Nat → List Nat) : Nat → Nat → List Nat
  | 0, i => [i]
  | fuel + 1, i =>
    i :: (f i).flatMap (fun m => if i < m then starIter f fuel m else [])

/-- All end offsets of matches of `r` in `t` beginning at offset `i`
(with duplicates allowed).  Zero-width constructs yield `i` itself.
The `star`/`plus` cases inline the `starIter` iteration through `Nat.rec`
to keep the recursion structural (see `mEnds_star` / `mEnds_plus`). -/
def mEnds (t : List Char) : Rx → Nat → List Nat
  | .fail, _ => []
  | .eps, i => [i]
  | .ch c, i =>
    match t[i]? with
    | some x => if x = c then [i + 1] else []
    | none => []
  | .cls neg items, i =>
    match t[i]? with
    | some x => if clsMatch neg items x then [i + 1] else []
    | none => []
  | .wordB, i => if wordBoundaryAt t i then [i] else []
  | .bol, i => if bolAt t i then [i] else []
  | .eol, i => if eolAt t i then [i] else []
  | .cat a b, i => (mEnds t a i).flatMap (mEnds t b)
  | .orr a b, i => mEnds t a i ++ mEnds t b i
  | .star a, i =>
    Nat.rec (motive := fun _ => Nat → List Nat) (fun j => [j])
      (fun _ ih j => j :: (mEnds t a j).flatMap (fun m => if j < m then ih m else []))
      (t.length + 1) i
  | .plus a, i =>
    (mEnds t a i).flatMap
      (Nat.rec (motive := fun _ => Nat → List Nat) (fun j => [j])
        (fun _ ih j => j :: (mEnds t a j).flatMap (fun m => if j < m then ih m else []))
        (t.length + 1))
  | .quest a, i => i :: mEnds t a i
  | .grpP a, i => mEnds t a i
  | .capP a, i => mEnds t a i
  | .la a, i => if (mEnds t a i).isEmpty then [] else [i]
  | .nla a, i => if (mEnds t a i).isEmpty then [i] else []
  | .lb a, i =>
    if (List.range (i + 1)).any (fun s => (mEnds t a s).contains i) then [i] else []
  | .nlb a, i =>
    if (List.range (i + 1)).any (fun s => (mEnds t a s).contains i) then [] else [i]

/-- Does `r` match at offset `i` of `t` (any end offset)? -/
def matchesAt (r : Rx) (t : List Char) (i : Nat) : Bool :=
  !(mEnds t r i).isEmpty

/-!
## Pattern composer and token catalog

Transcribed from `src/language/sml/grammar.ts`.  The TypeScript composer
builds pattern *strings*; here each function builds the `Rx` syntax tree
that its output string denotes.  Character-class arguments (`set`,
`complement`) take `CCItem`s, and keyword vocabularies stay `String`s
(interpolated into patterns via `lit`).
-/

/-- Literal pattern for a keyword/token string (each character matched verbatim). -/
def litL : List Char → Rx
  | [] => .eps
  | c :: cs => .cat (.ch c) (litL cs)

def lit (s : String) : Rx := litL s.toList

namespace Cls

/-- POSIX class `[:alnum:]` -/
def alnum : CCItem := .iNamed "alnum"
/-- POSIX class `[:alpha:]` -/
def alpha : CCItem := .iNamed "alpha"
/-- POSIX class `[:digit:]` -/
def digit : CCItem := .iNamed "digit"
/-- POSIX class `[:lower:]` -/
def lower : CCItem := .iNamed "lower"
/-- POSIX class `[:space:]` -/
def space : CCItem := .iNamed "space"
/-- POSIX class `[:upper:]` -/
def upper : CCItem := .iNamed "upper"
/-- POSIX class `[:word:]` -/
def word : CCItem := .iNamed "word"

end Cls

/-- Source `decStart` (grammar.ts lines 75-88): `Kwd.ABSTYPE` ... `Kwd.VAL`. -/
def decStart : List String :=
  ["abstype", "and", "datatype", "exception", "fun",
   "infix", "infixr", "local", "nonfix", "open", "type", "val"]

/-- Source `decEnd = [...decStart, Kwd.END, Kwd.IN]`. -/
def decEnd : List String := decStart ++ ["end", "in"]

/-- Source `topdecStart = [...decStart, INCLUDE, LOCAL, FUNCTOR, SIGNATURE, STRUCTURE]`. -/
def topdecStart : List String :=
  decStart ++ ["include", "local", "functor", "signature", "structure"]

/-- Source `topdecEnd = [...topdecStart, Kwd.END, Kwd.IN]`. -/
def topdecEndKws : List String := topdecStart ++ ["end", "in"]

namespace TokSet

/-- Source `TokSet.operator`: the operator-constituent characters
`[":", "!", "?", "'", "@", "/", "\-", "\*", "\\", "\+", "\|", "&", "#", "%", "` + backquote + `", "^", "<", "=", ">", "~", "$"]`. -/
def operator : List CCItem :=
  [.iChr ':', .iChr '!', .iChr '?', .iChr '\'', .iChr '@', .iChr '/',
   .iEsc '-', .iEsc '*', .iEsc '\\', .iEsc '+', .iEsc '|',
   .iChr '&', .iChr '#', .iChr '%', .iChr (Char.ofNat 96),
   .iChr '^', .iChr '<', .iChr '=', .iChr '>', .iChr '~', .iChr '$']

end TokSet

/-- Source `alt = (...rest) => rest.join("|")`. -/
def alt (rest : List Rx) : Rx := rest.foldr .orr .fail

/-- Source `capture = (arg) => "(" + arg + ")"`. -/
def capture (arg : Rx) : Rx := .capP arg

/-- Source `complement = (...rest) => "[^" + rest.join("") + "]"`. -/
def complement (rest : List CCItem) : Rx := .cls true rest

/-- Source `group = (arg) => "(?:" + arg + ")"`. -/
def group (arg : Rx) : Rx := .grpP arg

/-- Source `lookBehind = (arg) => "(?<=" + arg + ")"`. -/
def lookBehind (arg : Rx) : Rx := .lb arg

/-- Source `negativeLookBehind = (arg) => "(?<!" + arg + ")"`. -/
def negativeLookBehind (arg : Rx) : Rx := .nlb arg

/-- Source `seq = (...rest) => rest.join("")`. -/
def seq (rest : List Rx) : Rx := rest.foldr .cat .eps

/-- Source `lastOps(...rest)`: for each token pushes
`"[^" + seq(...TokSet.operator) + "]" + token` and `"^" + token`,
then joins the lot with `|`. -/
def lastOps (rest : List Rx) : Rx :=
  alt (rest.flatMap (fun token =>
    [seq [.cls true TokSet.operator, token], seq [.bol, token]]))

/-- Source `lastWords(...rest)`: for each token pushes `"[^[:word:]]" + token`
and `"^" + token`, then joins the lot with `|`. -/
def lastWords (rest : List Rx) : Rx :=
  alt (rest.flatMap (fun token =>
    [seq [.cls true [Cls.word], token], seq [.bol, token]]))

/-- Source `many = (arg) => arg + "*"`. -/
def many (arg : Rx) : Rx := .star arg

/-- Source `manyOne = (arg) => arg + "+"`. -/
def manyOne (arg : Rx) : Rx := .plus arg

/-- Source `opt = (arg) => arg + "?"`. -/
def opt (arg : Rx) : Rx := .quest arg

/-- Source `words = (arg) => "\b" + arg + "\b"`. -/
def words (arg : Rx) : Rx := seq [.wordB, arg, .wordB]

/-- Source `lookAhead = (arg) => "(?=" + arg + ")"`. -/
def lookAhead (arg : Rx) : Rx := .la arg

/-- Source `ops = (arg) => seq(lookBehind(complement(...TokSet.operator)), arg,
lookAhead(complement(...TokSet.operator)))`. -/
def ops (arg : Rx) : Rx :=
  seq [lookBehind (complement TokSet.operator), arg,
       lookAhead (complement TokSet.operator)]

/-- Source `negativeLookAhead = (arg) => "(?!=" + arg + ")"` (grammar.ts line 141).
Note the emitted string: `(?!` opens the negative lookahead and the stray
`=` becomes the first character of its body, so the assertion tested is
"no match of `=` followed by `arg` starts here". -/
def negativeLookAhead (arg : Rx) : Rx := .nla (.cat (.ch '=') arg)

/-- Source `set = (...rest) => "[" + rest.join("") + "]"`. -/
def set (rest : List CCItem) : Rx := .cls false rest

namespace Gph

/-- Glyph `'` -/
def APOSTROPHE : Rx := .ch '\''
/-- Glyph `\*` -/
def ASTERISK : Rx := .ch '*'
/-- Glyph `:` -/
def COLON : Rx := .ch ':'
/-- Glyph `,` -/
def COMMA : Rx := .ch ','
/-- Glyph `=` -/
def EQUALS_SIGN : Rx := .ch '='
/-- Glyph `\.\.\.` -/
def ELLIPSIS : Rx := seq [.ch '.', .ch '.', .ch '.']
/-- Glyph `\.` -/
def FULL_STOP : Rx := .ch '.'
/-- Glyph `>` -/
def GREATER_THAN_SIGN : Rx := .ch '>'
/-- Glyph `-` -/
def HYPHEN_MINUS : Rx := .ch '-'
/-- Glyph `\{` -/
def LEFT_CURLY_BRACKET : Rx := .ch '{'
/-- Glyph `\(` -/
def LEFT_PARENTHESIS : Rx := .ch '('
/-- Glyph `\[` -/
def LEFT_SQUARE_BRACKET : Rx := .ch '['
/-- Glyph `_` -/
def LOW_LINE : Rx := .ch '_'
/-- Glyph `#` -/
def NUMBER_SIGN : Rx := .ch '#'
/-- Glyph `\}` -/
def RIGHT_CURLY_BRACKET : Rx := .ch '}'
/-- Glyph `\)` -/
def RIGHT_PARENTHESIS : Rx := .ch ')'
/-- Glyph `\]` -/
def RIGHT_SQUARE_BRACKET : Rx := .ch ']'
/-- Glyph `"` -/
def QUOTATION_MARK : Rx := .ch '"'
/-- Glyph `;` -/
def SEMICOLON : Rx := .ch ';'
/-- Glyph `\|` -/
def VERTICAL_LINE : Rx := .ch '|'

end Gph

namespace Rx

/-- Pattern `Rx.boundary = "\b"`. -/
def boundary : Rx := .wordB

/-- Pattern `Rx.expEnd` (grammar.ts lines 170-188). -/
def expEnd : Rx :=
  lookAhead
    (alt
      [Gph.COMMA,
       Gph.RIGHT_CURLY_BRACKET,
       Gph.RIGHT_PARENTHESIS,
       Gph.RIGHT_SQUARE_BRACKET,
       seq
         [words (group (alt (topdecEndKws.map lit))),
          group
            (alt
              [.eol,
               set [Cls.space],
               ops
                 (alt
                   [Gph.COMMA,
                    Gph.RIGHT_CURLY_BRACKET,
                    Gph.RIGHT_PARENTHESIS,
                    Gph.RIGHT_SQUARE_BRACKET])])]])

/-- Pattern `Rx.topdecEndSansType` (grammar.ts lines 189-205): like `Rx.topdecEnd`
but with `TokSet.topdecEnd.filter((x) => x !== Kwd.TYPE)` as the keyword
alternation. -/
def topdecEndSansType : Rx :=
  lookAhead
    (alt
      [Gph.RIGHT_CURLY_BRACKET,
       Gph.RIGHT_PARENTHESIS,
       Gph.RIGHT_SQUARE_BRACKET,
       seq
         [words (group (alt ((topdecEndKws.filter (· ≠ "type")).map lit))),
          group
            (alt
              [.eol,
               set [Cls.space],
               ops
                 (alt
                   [Gph.RIGHT_CURLY_BRACKET,
                    Gph.RIGHT_PARENTHESIS,
                    Gph.RIGHT_SQUARE_BRACKET])])]])

/-- Pattern `Rx.topdecEnd` (grammar.ts lines 206-222). -/
def topdecEnd : Rx :=
  lookAhead
    (alt
      [Gph.RIGHT_CURLY_BRACKET,
       Gph.RIGHT_PARENTHESIS,
       Gph.RIGHT_SQUARE_BRACKET,
       seq
         [words (group (alt (topdecEndKws.map lit))),
          group
            (alt
              [.eol,
               set [Cls.space],
               ops
                 (alt
                   [Gph.RIGHT_CURLY_BRACKET,
                    Gph.RIGHT_PARENTHESIS,
                    Gph.RIGHT_SQUARE_BRACKET])])]])

end Rx

/-- The common shape of the two top-level-declaration terminators,
parameterized by the keyword alternation (stated as the spec words it:
a lookahead for a closing bracket, or one of the keywords as a whole word
followed by end-of-input, whitespace, or an operator-boundary-safe
closing bracket). -/
def topdecEndWith (kws : List String) : Rx :=
  lookAhead
    (alt
      [Gph.RIGHT_CURLY_BRACKET,
       Gph.RIGHT_PARENTHESIS,
       Gph.RIGHT_SQUARE_BRACKET,
       seq
         [words (group (alt (kws.map lit))),
          group
            (alt
              [.eol,
               set [Cls.space],
               ops
                 (alt
                   [Gph.RIGHT_CURLY_BRACKET,
                    Gph.RIGHT_PARENTHESIS,
                    Gph.RIGHT_SQUARE_BRACKET])])]])

/-!
## Grammar rules

A TextMate-style rule is a match rule, a region rule (begin/end patterns
with nested rules), a symbolic include of another repository entry, or a
bare list of sub-rules.  Only the rules the verified claims touch are
transcribed: `comment`, `decType`, `sigexp`.
-/

inductive Rule where
  /-- `{ include: ref }` -/
  | incl (ref : String)
  /-- `{ match, name?, captures? }` -/
  | matchRule (matchPat : Rx) (name : Option String) (captures : List (Nat × String))
  /-- `{ begin, end, name?, beginCaptures?, endCaptures?, captures?, patterns }` -/
  | region (beginPat endPat : Rx) (name : Option String)
      (beginCaptures endCaptures captures : List (Nat × String))
      (patterns : List Rule)
  /-- `{ patterns: [...] }` -/
  | patList (patterns : List Rule)

namespace Sco

/-- Scope `Sco.COMMENT` -/
def COMMENT : String := "comment"
/-- Scope `Sco.KEYWORD` -/
def KEYWORD : String := "keyword"
/-- Glyph `Sco.SIG` -/
def SIG : String :=
  "variable.other.class.js variable.interpolation keyword.control storage.type message.error"

end Sco

/-- Begin pattern of the `comment` rule: `seq(Gph.LEFT_PARENTHESIS, Gph.ASTERISK)`. -/
def commentBegin : Rx := seq [Gph.LEFT_PARENTHESIS, Gph.ASTERISK]

/-- End pattern of the `comment` rule: `seq(Gph.ASTERISK, Gph.RIGHT_PARENTHESIS)`. -/
def commentEnd : Rx := seq [Gph.ASTERISK, Gph.RIGHT_PARENTHESIS]

/-- The `comment` rule (grammar.ts lines 384-391): a region from `(*` to
`*)` scoped `Sco.COMMENT`, whose nested pattern list includes itself. -/
def comment : Rule :=
  .region commentBegin commentEnd (some Sco.COMMENT) [] [] [] [.incl "#comment"]

/-- The `decType` rule (grammar.ts lines 612-625). -/
def decType : Rule :=
  .patList
    [.region (words (lit "type"))
      (alt [Rx.topdecEnd, lookAhead (alt [words (lit "where"), Gph.EQUALS_SIGN])])
      none [(0, Sco.KEYWORD)] [] [] [.incl "#typbind"]]

/-- End pattern of the signature where-clause region (grammar.ts lines
1169-1175): `alt(capture(words(Kwd.WHERE)), lookAhead(alt(ops(Gph.EQUALS_SIGN),
Rx.topdecEndSansType)))`. -/
def sigexpWhereEnd : Rx :=
  alt [capture (words (lit "where")),
       lookAhead (alt [ops Gph.EQUALS_SIGN, Rx.topdecEndSansType])]

/-- The `sigexp` rule (grammar.ts lines 1154-1188). -/
def sigexp : Rule :=
  .patList
    [.incl "#comment",
     .region (words (lit "sig")) (words (lit "end")) none [] [] [(0, Sco.SIG)]
       [.incl "#spec"],
     .region (alt [lookBehind (lastWords [lit "where"]), words (lit "where")])
       sigexpWhereEnd
       none [(0, Sco.KEYWORD)] [(1, Sco.KEYWORD)] [] [.incl "#decType"],
     .incl "#qualifiedModule"]

/-- Operator-constituent character test: `TokSet.operator` as a predicate. -/
def isOperatorC (c : Char) : Bool := TokSet.operator.any (itemMatch · c)

/-!
## The word pattern (`src/language/sml/configuration.ts`)

`wordPattern: /\\[^\s]+|[^\\\s\d(){}\[\]#.][^\\\s(){}\[\]#.]*/`
-/

/-- First-character class of the run alternative:
`[^\\\s\d(){}\[\]#.]` — not backslash, whitespace, digit, bracket, `#`, `.`. -/
def wordStartItems : List CCItem :=
  [.iEsc '\\', .iEsc 's', .iEsc 'd', .iChr '(', .iChr ')',
   .iChr '{', .iChr '}', .iEsc '[', .iEsc ']', .iChr '#', .iChr '.']

/-- Continuation class of the run alternative:
`[^\\\s(){}\[\]#.]` — like `wordStartItems` but digits allowed. -/
def wordRunItems : List CCItem :=
  [.iEsc '\\', .iEsc 's', .iChr '(', .iChr ')',
   .iChr '{', .iChr '}', .iEsc '[', .iEsc ']', .iChr '#', .iChr '.']

/-- The word pattern of the language configuration. -/
def wordPattern : Rx :=
  .orr (.cat (.ch '\\') (.plus (.cls true [.iEsc 's'])))
       (.cat (.cls true wordStartItems) (.star (.cls true wordRunItems)))

/-- May a character continue a word run?  Not backslash, whitespace,
bracket, `#`, or `.`. -/
def wordRunOK (c : Char) : Bool :=
  !(c = '\\' || isSpaceC c || c = '(' || c = ')' || c = '{' || c = '}'
    || c = '[' || c = ']' || c = '#' || c = '.')

/-- May a character start a word run?  A run character that is additionally
not a digit. -/
def wordStartOK (c : Char) : Bool := wordRunOK c && !c.isDigit

/-- Modelled from the spec: what the spec/claim say the word pattern
matches — "a backslash followed by a run of one or more non-whitespace
characters, or a maximal run of characters that are not whitespace, not
brackets, not `#`, and not `.`" — with no exclusion of digits at the start
of a run nor of backslashes inside a run. -/
def claimedWordSpan (t : List Char) (i j : Nat) : Bool :=
  (t[i]? == some '\\' && decide (i + 2 ≤ j)
     && (List.range' (i + 1) (j - (i + 1))).all (fun k =>
          match t[k]? with
          | some c => !isSpaceC c
          | none => false))
  || (decide (i < j)
     && (List.range' i (j - i)).all (fun k =>
          match t[k]? with
          | some c => !(isSpaceC c || c = '(' || c = ')' || c = '{' || c = '}'
                        || c = '[' || c = ']' || c = '#' || c = '.')
          | none => false))

/-!
## The region-tokenization engine (ScopeTokenizer)

Modelled from the spec: the engine itself is not part of this repository
(the grammar is consumed by the editor's TextMate engine), so the scanner
below follows spec section 4.4 / section 3.  A `Matcher` abstracts steps
1-2: given the active frame stack and the current offset it returns the
winning rule application — the end offset of the consumed span, the stack
operation (push a region frame, pop the innermost frame, or keep the
stack), and an optional extra scope for the emitted token.  Steps 3-5
consume the span and emit one token; step 6 (nothing matches, or a
rule application that fails to consume text in bounds) advances by exactly
one text unit, the token inheriting only the enclosing frames' scopes.
Zero-width rule applications therefore emit no token of their own, which
is what makes the spec's termination and coverage guarantees hold for
every matcher. -/

/-- One token: a half-open offset range and the scopes active on it. -/
structure Token where
  start : Nat
  stop : Nat
  scopes : List String
deriving DecidableEq, Repr

/-- Effect of the winning rule application on the frame stack. -/
inductive StackOp where
  /-- a match rule: stack unchanged -/
  | keep
  /-- a region rule's begin pattern: push a frame carrying the region's scope -/
  | push (scope : Option String)
  /-- the active region's end pattern: pop the innermost frame -/
  | pop
deriving DecidableEq, Repr

/-- An active region frame (innermost first on the stack). -/
structure Frame where
  scope : Option String
deriving DecidableEq, Repr

def applyOp : StackOp → List Frame → List Frame
  | .keep, st => st
  | .push sc, st => ⟨sc⟩ :: st
  | .pop, st => st.tail

/-- Scopes contributed by the enclosing frames, outermost first. -/
def frameScopes (st : List Frame) : List String :=
  st.reverse.filterMap (·.scope)

/-- A matcher: the ordered-rule resolution of spec steps 1-2, abstracted.
Returns `some (j, op, sc)` when a rule wins at offset `i` with consumed
span `[i, j)`, stack effect `op` and extra scope `sc`. -/
def Matcher : Type := List Frame → Nat → Option (Nat × StackOp × Option String)

/-- The scan loop (spec steps 3-7).  `fuel` only bounds the recursion; the
offset strictly increases at every step, so `t.length` steps suffice. -/
def scanGo (m : Matcher) (t : List Char) : Nat → Nat → List Frame → List Token
  | 0, _, _ => []
  | fuel + 1, i, st =>
    if i < t.length then
      match m st i with
      | some (j, op, sc) =>
        if i < j ∧ j ≤ t.length then
          ⟨i, j, frameScopes st ++ sc.toList⟩ :: scanGo m t fuel j (applyOp op st)
        else
          ⟨i, i + 1, frameScopes st⟩ :: scanGo m t fuel (i + 1) st
      | none => ⟨i, i + 1, frameScopes st⟩ :: scanGo m t fuel (i + 1) st
    else []

/-- One full tokenization run over `t`. -/
def scan (m : Matcher) (t : List Char) : List Token :=
  scanGo m t t.length 0 []

/-- The ranges of `toks` tile `[a, b)` exactly: consecutive, nonempty,
starting at `a` and ending at `b`. -/
def chainB (a : Nat) : List Token → Nat → Prop
  | [], b => a = b
  | tok :: rest, b => tok.start = a ∧ a < tok.stop ∧ chainB tok.stop rest b

/-- Matcher for a scan rooted at the `comment` rule: the nested `#comment`
include resolves to the rule itself, so inside an open region a new `(*`
begin is tried before the region's own `*)` end (spec step 2, declared
order); the region's name `Sco.COMMENT` covers the whole region including
its delimiters. -/
def commentMatcher (t : List Char) : Matcher := fun st i =>
  match (mEnds t commentBegin i).head? with
  | some j => some (j, .push (some Sco.COMMENT), some Sco.COMMENT)
  | none =>
    if st.isEmpty then none
    else
      match (mEnds t commentEnd i).head? with
      | some j => some (j, .pop, none)
      | none => none

/-!
## The Transducer (`src/extension.ts` lines 39-69)

`feed` splits each stdout chunk with `data.toString().split(/\n(?!\s)/m)`,
absorbs the pieces into the pending line / completed-lines buffers with
the shift/push loop, and emits the batch when the remaining pending line
is exactly the idle prompt marker `"- "`.
-/

/-- Does the remaining input start with a whitespace character?  This is
the `(?!\s)` test of the split regex (negated): at end of input the
lookahead succeeds, so the newline splits. -/
def nextIsWS : List Char → Bool
  | c2 :: _ => isSpaceC c2
  | [] => false

/-- Source `data.split(/\n(?!\s)/)`: scan left to right; a `\n` followed by a
whitespace character stays inside the current piece, any other `\n` ends
the piece (and is dropped, being the separator). -/
def splitNL (acc : List Char) : List Char → List (List Char)
  | [] => [acc]
  | c :: rest =>
    if c = '\n' then
      if nextIsWS rest then splitNL (acc ++ [c]) rest
      else acc :: splitNL [] rest
    else splitNL (acc ++ [c]) rest

def splitFeed (data : List Char) : List (List Char) := splitNL [] data

/-- The `while (lines.length > 0)` loop of `Transducer.feed`: every piece
but the last is appended (prefixed by the pending fragment, which is then
cleared) to the completed lines; the last piece becomes the new pending
fragment. -/
def absorb (lines : List (List Char)) (pending : List Char) :
    List (List Char) → List (List Char) × List Char
  | [] => (lines, pending)
  | p :: rest =>
    match rest with
    | [] => (lines, pending ++ p)
    | _ :: _ => absorb (lines ++ [pending ++ p]) [] rest

/-- The transducer's mutable state: `lines` and `pendingLine`. -/
structure TState where
  lines : List (List Char)
  pendingLine : List Char
deriving DecidableEq, Repr

/-- Source `Transducer.feed`: split, absorb, and emit (resetting both buffers)
exactly when the pending fragment equals the prompt marker `"- "`. -/
def feed (st : TState) (data : List Char) : TState × Option (List (List Char)) :=
  let r := absorb st.lines st.pendingLine (splitFeed data)
  if r.2 = "- ".toList then (⟨[], []⟩, some r.1) else (⟨r.1, r.2⟩, none)

/-- Feed a sequence of chunks from a fresh transducer, collecting every
emitted batch. -/
def feedAll (chunks : List (List Char)) : TState × List (List (List Char)) :=
  chunks.foldl
    (fun acc data =>
      let r := feed acc.1 data
      (r.1, acc.2 ++ r.2.toList))
    (⟨[], []⟩, [])

/-- Reassemble split pieces with `'\n'` separators. -/
def joinNL : List (List Char) → List Char
  | [] => []
  | [p] => p
  | p :: q :: rest => p ++ '\n' :: joinNL (q :: rest)

/-- Number of newlines not immediately followed by a whitespace character. -/
def bareNL : List Char → Nat
  | [] => 0
  | c :: rest => (if c = '\n' && !nextIsWS rest then 1 else 0) + bareNL rest

/-!
## The diagnostic pattern and conversion (`src/extension.ts` lines 8-10, 116-141)

`Pattern.diagnostic = /^(.+?):(\d+)\.(\d+)(?:-(\d+).(\d+))?\s(\b(?:Error)\b):\s(.*(?:\n\s+.*)*)/m`

The parser below implements this regex over a logical line, with the
JavaScript backtracking order made explicit: the lazy `(.+?)` tries the
shortest path first, each greedy `\d+` tries the longest digit run first,
the optional end-position group is tried before being skipped, the `.`
after the end-line digits matches any character except a newline, and the
`m` flag lets `^` anchor at the start or after any newline. -/

/-- Digits-to-number, as `parseInt(..., 10)` on a nonempty digit run. -/
def natOfDigits (ds : List Char) : Nat :=
  ds.foldl (fun n c => 10 * n + (c.toNat - '0'.toNat)) 0

/-- The message capture `(.*(?:\n\s+.*)*)`: the rest of the current line,
plus every following line that starts with a whitespace character. -/
def msgGo : Nat → List Char → List Char
  | 0, r => r.takeWhile (· ≠ '\n')
  | fuel + 1, r =>
    let l := r.takeWhile (· ≠ '\n')
    match r.dropWhile (· ≠ '\n') with
    | '\n' :: r2 => if nextIsWS r2 then l ++ '\n' :: msgGo fuel r2 else l
    | _ => l

def msgOf (r : List Char) : List Char := msgGo r.length r

/-- Source `\s(\b(?:Error)\b):\s(message)`: one whitespace, the word `Error`
(the leading `\b` always holds after `\s`; the trailing `\b` is subsumed
by the required `:`), a colon, one whitespace, then the message capture. -/
def afterPos (r : List Char) : Option (List Char) :=
  match r with
  | c :: r1 =>
    if isSpaceC c then
      if r1.take 5 = "Error".toList then
        match r1.drop 5 with
        | ':' :: r2 =>
          match r2 with
          | c2 :: r3 => if isSpaceC c2 then some (msgOf r3) else none
          | [] => none
        | _ => none
      else none
    else none
  | [] => none

/-- The optional `(?:-(\d+).(\d+))?` followed by `afterPos`: the group is
tried first (with greedy, longest-first digit runs and an any-non-newline
character between them), and skipped only if no present-variant succeeds. -/
def parseTail (r : List Char) : Option (Option (Nat × Nat) × List Char) :=
  let present : Option (Option (Nat × Nat) × List Char) :=
    match r with
    | '-' :: r1 =>
      let dA := r1.takeWhile Char.isDigit
      (List.range dA.length).findSome? (fun d1 =>
        let k1 := dA.length - d1
        let el := natOfDigits (dA.take k1)
        match r1.drop k1 with
        | c :: r2 =>
          if c = '\n' then none
          else
            let dB := r2.takeWhile Char.isDigit
            (List.range dB.length).findSome? (fun d2 =>
              let k2 := dB.length - d2
              let ec := natOfDigits (dB.take k2)
              match afterPos (r2.drop k2) with
              | some msg => some (some (el, ec), msg)
              | none => none)
        | [] => none)
    | _ => none
  match present with
  | some res => some res
  | none =>
    match afterPos r with
    | some msg => some (none, msg)
    | none => none

/-- The captures of one diagnostic match: path, 1-based start line/column,
the optional 1-based end line/column, and the message. -/
structure DiagMatch where
  path : List Char
  startLine : Nat
  startCol : Nat
  endPart : Option (Nat × Nat)
  message : List Char
deriving DecidableEq, Repr

/-- Match the diagnostic pattern at one anchor position: lazy `(.+?)`
(shortest path, no newline, at least one character), `:`, greedy start
line/column digits, then `parseTail`. -/
def diagAt (cs : List Char) : Option DiagMatch :=
  (List.range cs.length).findSome? (fun pl =>
    let plen := pl + 1
    let path := cs.take plen
    if path.contains '\n' then none
    else
      match cs.drop plen with
      | ':' :: r0 =>
        let d1 := r0.takeWhile Char.isDigit
        if d1.isEmpty then none
        else
          match r0.drop d1.length with
          | '.' :: r1 =>
            let d2 := r1.takeWhile Char.isDigit
            if d2.isEmpty then none
            else
              match parseTail (r1.drop d2.length) with
              | some (endP, msg) =>
                some ⟨path, natOfDigits d1, natOfDigits d2, endP, msg⟩
              | none => none
          | _ => none
      | _ => none)

/-- Source `line.match(Pattern.diagnostic)`: the leftmost `^`-anchored position
(offset 0 or just after a newline) where the pattern matches. -/
def diagMatch (line : List Char) : Option DiagMatch :=
  ((List.range (line.length + 1)).filter (fun s => bolAt line s)).findSome?
    (fun s => diagAt (line.drop s))

/-- A 0-based editor range, as built by `new vs.Range(startLine, startChar,
endLine, endChar)`. -/
structure VsRange where
  startLine : Int
  startChar : Int
  endLine : Int
  endChar : Int
deriving DecidableEq, Repr

/-- The conversion in `SML.execute` (extension.ts lines 130-136):
`parseInt(...) - 1` for the start positions, and
`parseInt(...) - 1 || startLine` / `|| startChar` for the end positions —
`parseInt(undefined)` is `NaN` (falsy) when the group is absent, and a
present value converts to its predecessor *unless that predecessor is the
falsy 0*, in which case the start coordinate is used instead. -/
def convertMatch (m : DiagMatch) : VsRange :=
  let sl : Int := (m.startLine : Int) - 1
  let sc : Int := (m.startCol : Int) - 1
  match m.endPart with
  | none => ⟨sl, sc, sl, sc⟩
  | some (el, ec) =>
    ⟨sl, sc,
     if (el : Int) - 1 = 0 then sl else (el : Int) - 1,
     if (ec : Int) - 1 = 0 then sc else (ec : Int) - 1⟩

/-- Path, converted range and message of the diagnostic parsed from one line. -/
def diagnose (line : List Char) : Option (List Char × VsRange × List Char) :=
  (diagMatch line).map (fun m => (m.path, convertMatch m, m.message))

/-!
## The collation loop (`src/extension.ts` lines 116-140)

One line's contribution: parse the diagnostic pattern (`continue` on
failure), build the uri from `file://${rootPath}/${path}` (`continue` on a
parse throw, modelled by the abstract `uriParse` returning `none`), and
record the diagnostic.  The `Map` in `execute` is keyed by the freshly
constructed `vs.Uri` object of each line, so `has(uri)` never finds a
previous entry and every surviving diagnostic appends its own
`(uri, [diagnostic])` entry, in line order; `DiagnosticCollection.set`
merges entries with equal uris at delivery. -/

/-- The uri text `file://${rootPath}/${path}` handed to `vs.Uri.parse`. -/
def uriString (rootPath path : List Char) : List Char :=
  "file://".toList ++ rootPath ++ '/' :: path

def processLine (uriParse : List Char → Option (List Char)) (rootPath : List Char)
    (line : List Char) : Option (List Char × VsRange × List Char) :=
  match diagMatch line with
  | none => none
  | some m =>
    match uriParse (uriString rootPath m.path) with
    | none => none
    | some uri => some (uri, convertMatch m, m.message)

def collateGo (uriParse : List Char → Option (List Char)) (rootPath : List Char)
    (acc : List (List Char × List (VsRange × List Char))) :
    List (List Char) → List (List Char × List (VsRange × List Char))
  | [] => acc
  | line :: rest =>
    match diagMatch line with
    | none => collateGo uriParse rootPath acc rest
    | some m =>
      match uriParse (uriString rootPath m.path) with
      | none => collateGo uriParse rootPath acc rest
      | some uri =>
        collateGo uriParse rootPath
          (acc ++ [(uri, [(convertMatch m, m.message)])]) rest

/-- The collated diagnostics of one response batch. -/
def collate (uriParse : List Char → Option (List Char)) (rootPath : List Char)
    (response : List (List Char)) : List (List Char × List (VsRange × List Char)) :=
  collateGo uriParse rootPath [] response

/-! ## Theorems -/

theorem starIter_eq_natrec (f : Nat → List Nat) (n : Nat) :
    (Nat.rec (motive := fun _ => Nat → List Nat) (fun j => [j])
      (fun _ ih j => j :: (f j).flatMap (fun m => if j < m then ih m else [])) n)
    = starIter f n := by
  induction n with
  | zero => rfl
  | succ n ih => funext j; simp [starIter, ih]

theorem mEnds_star (t : List Char) (a : Rx) (i : Nat) :
    mEnds t (.star a) i = starIter (mEnds t a) (t.length + 1) i :=
  congrFun (starIter_eq_natrec (mEnds t a) (t.length + 1)) i

theorem mEnds_plus (t : List Char) (a : Rx) (i : Nat) :
    mEnds t (.plus a) i
      = (mEnds t a i).flatMap (starIter (mEnds t a) (t.length + 1)) :=
  congrArg (mEnds t a i).flatMap (starIter_eq_natrec (mEnds t a) (t.length + 1))

example : mEnds "ab".toList (.ch 'a') 0 = [1] := by decide
example : mEnds "ab".toList (.cat (.ch 'a') (.ch 'b')) 0 = [2] := by decide
example : matchesAt (.lb (.ch 'a')) "ab".toList 1 = true := by decide
example : matchesAt (.lb (.ch 'a')) "ab".toList 0 = false := by decide
example : mEnds "aaa".toList (.star (.ch 'a')) 0 = [0, 1, 2, 3] := by decide
example : matchesAt .wordB "a b".toList 1 = true := by decide
example : matchesAt .wordB "ab".toList 1 = false := by decide

example : Rx.topdecEnd = topdecEndWith topdecEndKws := rfl
example : Rx.topdecEndSansType = topdecEndWith (topdecEndKws.filter (· ≠ "type")) := rfl

/-- C1: the claim states that `negativeLookAhead(p)` matches exactly at the
positions where `p` does not match.  The builder (grammar.ts line 141)
emits `(?!=p)` — a negative lookahead whose body is a stray `=` followed
by `p` — so for `p = a` on the text `"a"` the emitted assertion holds at
position 0 even though `p` matches there, while a true negative lookahead
`(?!a)` (third conjunct, the behavior the claim and the sibling builders
`lookAhead (?=...)` / `negativeLookBehind (?<!...)` describe) does not. -/
theorem negativeLookAhead_stray_equals :
    mEnds "a".toList (negativeLookAhead (.ch 'a')) 0 = [0]
      ∧ mEnds "a".toList (.ch 'a') 0 = [1]
      ∧ mEnds "a".toList (.nla (.ch 'a')) 0 = [] := by
  refine ⟨by decide, by decide, by decide⟩

/-- C3: `Rx.topdecEndSansType` is `Rx.topdecEnd` with exactly the keyword
`type` filtered out of the keyword alternation (first two conjuncts: both
equal the common builder instantiated at the full and the filtered keyword
list; the filter removes exactly `"type"`), the two variants genuinely
differ, and the sans-type variant is the one inside the signature
where-clause region's end pattern.  Behaviorally, at offset 6 of
`"where type t = int end"` (the second `type`) the general terminator
fires while the sans-type terminator does not, and `decType`'s begin
pattern `\btype\b` matches there (offsets 6-10), opening the nested
type-binding; at offset 13 of `"type t = int val x = 1"` (the `val`) the
terminator fires. -/
theorem topdecEndSansType_characterization :
    Rx.topdecEnd = topdecEndWith topdecEndKws
  ∧ Rx.topdecEndSansType = topdecEndWith (topdecEndKws.filter (· ≠ "type"))
  ∧ topdecEndKws.filter (· ≠ "type")
      = ["abstype", "and", "datatype", "exception", "fun", "infix", "infixr",
         "local", "nonfix", "open", "val", "include", "local", "functor",
         "signature", "structure", "end", "in"]
  ∧ Rx.topdecEndSansType ≠ Rx.topdecEnd
  ∧ sigexpWhereEnd
      = alt [capture (words (lit "where")),
             lookAhead (alt [ops Gph.EQUALS_SIGN, Rx.topdecEndSansType])]
  ∧ matchesAt Rx.topdecEnd "where type t = int end".toList 6 = true
  ∧ matchesAt Rx.topdecEndSansType "where type t = int end".toList 6 = false
  ∧ mEnds "where type t = int end".toList (words (lit "type")) 6 = [10]
  ∧ matchesAt Rx.topdecEnd "type t = int val x = 1".toList 13 = true := by
  refine ⟨rfl, rfl, by decide, by decide, rfl, by decide, by decide, by decide, by decide⟩

/-!
### Membership characterizations for `mEnds`
-/

theorem mem_mEnds_cat {t : List Char} {a b : Rx} {i j : Nat} :
    j ∈ mEnds t (.cat a b) i ↔ ∃ m, m ∈ mEnds t a i ∧ j ∈ mEnds t b m := by
  simp [mEnds, List.mem_flatMap]

theorem mem_mEnds_orr {t : List Char} {a b : Rx} {i j : Nat} :
    j ∈ mEnds t (.orr a b) i ↔ j ∈ mEnds t a i ∨ j ∈ mEnds t b i := by
  simp [mEnds]

theorem mem_mEnds_eps {t : List Char} {i j : Nat} :
    j ∈ mEnds t .eps i ↔ j = i := by
  simp [mEnds]

theorem mem_mEnds_ch {t : List Char} {c : Char} {i j : Nat} :
    j ∈ mEnds t (.ch c) i ↔ t[i]? = some c ∧ j = i + 1 := by
  unfold mEnds
  cases h : t[i]? with
  | none => simp [h]
  | some x =>
    by_cases hx : x = c <;> simp [h, hx]

theorem mem_mEnds_cls {t : List Char} {neg : Bool} {items : List CCItem} {i j : Nat} :
    j ∈ mEnds t (.cls neg items) i
      ↔ ∃ c, t[i]? = some c ∧ clsMatch neg items c = true ∧ j = i + 1 := by
  unfold mEnds
  cases h : t[i]? with
  | none => simp [h]
  | some x =>
    by_cases hx : clsMatch neg items x = true <;> simp [h, hx]

theorem mem_mEnds_bol {t : List Char} {i j : Nat} :
    j ∈ mEnds t .bol i ↔ bolAt t i = true ∧ j = i := by
  unfold mEnds
  split_ifs with h <;> simp [h]

theorem mem_mEnds_la {t : List Char} {a : Rx} {i j : Nat} :
    j ∈ mEnds t (.la a) i ↔ (∃ m, m ∈ mEnds t a i) ∧ j = i := by
  rw [show mEnds t (.la a) i = if (mEnds t a i).isEmpty then [] else [i] from rfl]
  split_ifs with h <;>
    simp_all [List.isEmpty_iff, List.eq_nil_iff_forall_not_mem]

theorem mem_mEnds_lb {t : List Char} {a : Rx} {i j : Nat} :
    j ∈ mEnds t (.lb a) i ↔ (∃ s, s ≤ i ∧ i ∈ mEnds t a s) ∧ j = i := by
  rw [show mEnds t (.lb a) i
      = if (List.range (i + 1)).any (fun s => (mEnds t a s).contains i)
        then [i] else [] from rfl]
  split_ifs with h <;>
    simp_all [List.any_eq_true, List.mem_range, Nat.lt_succ_iff]

theorem matchesAt_iff {r : Rx} {t : List Char} {i : Nat} :
    matchesAt r t i = true ↔ ∃ j, j ∈ mEnds t r i := by
  simp [matchesAt, List.isEmpty_iff, List.eq_nil_iff_forall_not_mem]

theorem mem_mEnds_alt {t : List Char} {i j : Nat} (rs : List Rx) :
    j ∈ mEnds t (alt rs) i ↔ ∃ r ∈ rs, j ∈ mEnds t r i := by
  induction rs with
  | nil => simp [alt, mEnds]
  | cons r rs ih =>
    rw [show alt (r :: rs) = .orr r (alt rs) from rfl, mem_mEnds_orr, ih]
    simp

theorem mem_mEnds_litL {t : List Char} (cs : List Char) (i j : Nat) :
    j ∈ mEnds t (litL cs) i ↔ cs <+: t.drop i ∧ j = i + cs.length := by
  induction cs generalizing i with
  | nil => simp [litL, mem_mEnds_eps]
  | cons c cs ih =>
    rw [show litL (c :: cs) = .cat (.ch c) (litL cs) from rfl, mem_mEnds_cat]
    constructor
    · rintro ⟨m, hm, hj⟩
      rw [mem_mEnds_ch] at hm
      obtain ⟨hget, rfl⟩ := hm
      rw [ih] at hj
      obtain ⟨hpre, rfl⟩ := hj
      have hi : i < t.length := by
        rcases List.getElem?_eq_some.mp hget with ⟨h, _⟩
        exact h
      rw [List.drop_eq_getElem_cons hi]
      have hc : t[i] = c := by
        rcases List.getElem?_eq_some.mp hget with ⟨_, h⟩
        exact h
      exact ⟨List.cons_prefix_cons.mpr ⟨hc.symm, hpre⟩, by simp; omega⟩
    · rintro ⟨hpre, rfl⟩
      by_cases hi : i < t.length
      · rw [List.drop_eq_getElem_cons hi, List.cons_prefix_cons] at hpre
        obtain ⟨hc, hpre⟩ := hpre
        refine ⟨i + 1, ?_, ?_⟩
        · rw [mem_mEnds_ch]
          exact ⟨by rw [List.getElem?_eq_some]; exact ⟨hi, hc.symm⟩, rfl⟩
        · rw [ih]
          exact ⟨hpre, by simp; omega⟩
      · exfalso
        rw [List.drop_eq_nil_of_le (by omega), List.prefix_nil] at hpre
        simp at hpre

theorem str_toList_length (s : String) : s.toList.length = s.length := rfl

/-- C10: `ops(p)` wraps `p` between a lookbehind and a lookahead over the
negated operator-constituent class; a negated character class still has to
consume one character, so any match of `ops p` spanning `[i, j)` has an
actual character before `i` (hence `0 < i`) and an actual character at `j`
(hence `j < length`): an `ops`-wrapped token can never match at offset 0
nor end at the end of the input. -/
theorem ops_requires_adjacent_chars (p : Rx) (t : List Char) (i j : Nat)
    (h : j ∈ mEnds t (ops p) i) : 0 < i ∧ j < t.length := by
  rw [show ops p = .cat (.lb (.cls true TokSet.operator))
        (.cat p (.cat (.la (.cls true TokSet.operator)) .eps)) from rfl,
      mem_mEnds_cat] at h
  obtain ⟨m1, h1, h⟩ := h
  rw [mem_mEnds_lb] at h1
  obtain ⟨⟨s, hs, hsi⟩, rfl⟩ := h1
  rw [mem_mEnds_cls] at hsi
  obtain ⟨c, hc, -, hi⟩ := hsi
  rw [mem_mEnds_cat] at h
  obtain ⟨m2, h2, h⟩ := h
  rw [mem_mEnds_cat] at h
  obtain ⟨m3, h3, h4⟩ := h
  rw [mem_mEnds_la] at h3
  obtain ⟨⟨m, hm⟩, heq⟩ := h3
  rw [mem_mEnds_cls] at hm
  obtain ⟨c2, hc2, -, -⟩ := hm
  rw [mem_mEnds_eps] at h4
  have hlt : m2 < t.length := (List.getElem?_eq_some.mp hc2).1
  omega

/-- Witness for `ops_requires_adjacent_chars` at `p = a`, text `"xay"`,
match span `[1, 2)`. -/
theorem ops_requires_adjacent_chars_witness :
    (2 ∈ mEnds "xay".toList (ops (.ch 'a')) 1)
      ∧ (0 < 1 ∧ 2 < "xay".toList.length) :=
  ⟨by decide, ops_requires_adjacent_chars (.ch 'a') "xay".toList 1 2 (by decide)⟩

/-- Line start: `^` can only hold at offset 0 of a newline-free text. -/
theorem bolAt_no_newline {t : List Char} {s : Nat} (hnl : '\n' ∉ t) :
    bolAt t s = true ↔ s = 0 := by
  unfold bolAt
  cases h : t[s - 1]? with
  | none => simp
  | some c =>
    have hmem : c ∈ t := List.getElem?_mem h
    have hc : c ≠ '\n' := fun hceq => hnl (hceq ▸ hmem)
    simp [hc]

/-- Matches of one `lastWords`/`lastOps`-style alternation starting at `s`:
either a guard-class character at `s` followed by one of the tokens, or one
of the tokens anchored at a line start. -/
theorem lastAlt_mem (g : List CCItem) (toks : List String) (t : List Char) (s i : Nat) :
    i ∈ mEnds t (alt ((toks.map lit).flatMap
        (fun token => [seq [.cls true g, token], seq [.bol, token]]))) s
      ↔ ∃ tok ∈ toks,
          ((∃ c, t[s]? = some c ∧ clsMatch true g c = true
              ∧ tok.toList <+: t.drop (s + 1) ∧ i = s + 1 + tok.length)
           ∨ (bolAt t s = true ∧ tok.toList <+: t.drop s ∧ i = s + tok.length)) := by
  rw [mem_mEnds_alt]
  constructor
  · rintro ⟨r, hr, hir⟩
    rw [List.mem_flatMap] at hr
    obtain ⟨tokR, htokR, hrmem⟩ := hr
    rw [List.mem_map] at htokR
    obtain ⟨tok, htok, rfl⟩ := htokR
    refine ⟨tok, htok, ?_⟩
    simp only [List.mem_cons, List.not_mem_nil, or_false] at hrmem
    rcases hrmem with rfl | rfl
    · left
      rw [show seq [.cls true g, lit tok]
            = .cat (.cls true g) (.cat (litL tok.toList) .eps) from rfl,
          mem_mEnds_cat] at hir
      obtain ⟨m, hm, hir⟩ := hir
      rw [mem_mEnds_cls] at hm
      obtain ⟨c, hc, hcg, rfl⟩ := hm
      rw [mem_mEnds_cat] at hir
      obtain ⟨m2, hm2, hir⟩ := hir
      rw [mem_mEnds_litL] at hm2
      obtain ⟨hpre, rfl⟩ := hm2
      rw [mem_mEnds_eps] at hir
      exact ⟨c, hc, hcg, hpre, by rw [hir, str_toList_length]⟩
    · right
      rw [show seq [.bol, lit tok]
            = .cat .bol (.cat (litL tok.toList) .eps) from rfl,
          mem_mEnds_cat] at hir
      obtain ⟨m, hm, hir⟩ := hir
      rw [mem_mEnds_bol] at hm
      obtain ⟨hbol, rfl⟩ := hm
      rw [mem_mEnds_cat] at hir
      obtain ⟨m2, hm2, hir⟩ := hir
      rw [mem_mEnds_litL] at hm2
      obtain ⟨hpre, rfl⟩ := hm2
      rw [mem_mEnds_eps] at hir
      exact ⟨hbol, hpre, by rw [hir, str_toList_length]⟩
  · rintro ⟨tok, htok, hcase⟩
    rcases hcase with ⟨c, hc, hcg, hpre, hieq⟩ | ⟨hbol, hpre, hieq⟩
    · refine ⟨seq [.cls true g, lit tok], ?_, ?_⟩
      · rw [List.mem_flatMap]
        exact ⟨lit tok, List.mem_map.mpr ⟨tok, htok, rfl⟩, by simp⟩
      · rw [show seq [.cls true g, lit tok]
              = .cat (.cls true g) (.cat (litL tok.toList) .eps) from rfl,
            mem_mEnds_cat]
        refine ⟨s + 1, mem_mEnds_cls.mpr ⟨c, hc, hcg, rfl⟩, ?_⟩
        rw [mem_mEnds_cat]
        refine ⟨s + 1 + tok.toList.length,
          (mem_mEnds_litL _ _ _).mpr ⟨hpre, rfl⟩, mem_mEnds_eps.mpr ?_⟩
        rw [hieq, str_toList_length]
    · refine ⟨seq [.bol, lit tok], ?_, ?_⟩
      · rw [List.mem_flatMap]
        exact ⟨lit tok, List.mem_map.mpr ⟨tok, htok, rfl⟩, by simp⟩
      · rw [show seq [.bol, lit tok]
              = .cat .bol (.cat (litL tok.toList) .eps) from rfl,
            mem_mEnds_cat]
        refine ⟨s, mem_mEnds_bol.mpr ⟨hbol, rfl⟩, ?_⟩
        rw [mem_mEnds_cat]
        refine ⟨s + tok.toList.length,
          (mem_mEnds_litL _ _ _).mpr ⟨hpre, rfl⟩, mem_mEnds_eps.mpr ?_⟩
        rw [hieq, str_toList_length]

/-- The "preceded by last significant token" assertion, characterized for
any guard class `g` whose complement-class test agrees with `!gP`. -/
theorem precededBy_characterization (g : List CCItem) (gP : Char → Bool)
    (hg : ∀ c, clsMatch true g c = !gP c)
    (toks : List String) (t : List Char) (i : Nat) (hnl : '\n' ∉ t) :
    matchesAt (lookBehind (alt ((toks.map lit).flatMap
        (fun token => [seq [.cls true g, token], seq [.bol, token]])))) t i = true
      ↔ ∃ tok ∈ toks, tok.toList <+: t.drop (i - tok.length) ∧ tok.length ≤ i ∧
          (i = tok.length
            ∨ ∃ c, t[i - tok.length - 1]? = some c ∧ gP c = false) := by
  rw [matchesAt_iff]
  constructor
  · rintro ⟨j, hj⟩
    rw [show lookBehind (alt ((toks.map lit).flatMap
          (fun token => [seq [.cls true g, token], seq [.bol, token]])))
          = .lb (alt ((toks.map lit).flatMap
              (fun token => [seq [.cls true g, token], seq [.bol, token]]))) from rfl,
        mem_mEnds_lb] at hj
    obtain ⟨⟨s, hs, hsi⟩, -⟩ := hj
    rw [lastAlt_mem] at hsi
    obtain ⟨tok, htok, hcase⟩ := hsi
    refine ⟨tok, htok, ?_⟩
    rcases hcase with ⟨c, hc, hcg, hpre, hieq⟩ | ⟨hbol, hpre, hieq⟩
    · have hsL : i - tok.length = s + 1 := by omega
      refine ⟨by rw [hsL]; exact hpre, by omega, Or.inr ⟨c, ?_, ?_⟩⟩
      · rw [show i - tok.length - 1 = s by omega]
        exact hc
      · have := hg c
        rw [hcg] at this
        simpa using this.symm
    · have hs0 : s = 0 := (bolAt_no_newline hnl).mp hbol
      subst hs0
      refine ⟨?_, by omega, Or.inl (by omega)⟩
      rw [show i - tok.length = 0 by omega]
      exact hpre
  · rintro ⟨tok, htok, hpre, hL, hcase⟩
    refine ⟨i, ?_⟩
    rw [show lookBehind (alt ((toks.map lit).flatMap
          (fun token => [seq [.cls true g, token], seq [.bol, token]])))
          = .lb (alt ((toks.map lit).flatMap
              (fun token => [seq [.cls true g, token], seq [.bol, token]]))) from rfl,
        mem_mEnds_lb]
    refine ⟨?_, rfl⟩
    by_cases hiL : i = tok.length
    · refine ⟨0, by omega, ?_⟩
      rw [lastAlt_mem]
      refine ⟨tok, htok, Or.inr ⟨?_, ?_, by omega⟩⟩
      · simp [bolAt]
      · rw [show (0 : Nat) = i - tok.length by omega]
        exact hpre
    · have hLlt : tok.length < i := by omega
      rcases hcase with h | ⟨c, hc, hgp⟩
      · omega
      · refine ⟨i - tok.length - 1, by omega, ?_⟩
        rw [lastAlt_mem]
        refine ⟨tok, htok, Or.inl ⟨c, hc, ?_, ?_, by omega⟩⟩
        · rw [hg c, hgp]
          rfl
        · rw [show i - tok.length - 1 + 1 = i - tok.length by omega]
          exact hpre

/-- C4: `precededByLastSignificantWord` / `precededByLastSignificantOperator`
(the `lastWords` / `lastOps` helpers wrapped in a lookbehind, as every
caller uses them): the assertion holds at `i` on a (single-line) text
exactly when the text immediately before `i` ends with one of the listed
tokens, and that token occurrence either sits at the very start of the
input or is not preceded by a word-constituent character (word variant)
resp. an operator-constituent character (operator variant). -/
theorem lastWords_lastOps_assertion (toks : List String) (t : List Char) (i : Nat)
    (hnl : '\n' ∉ t) :
    (matchesAt (lookBehind (lastWords (toks.map lit))) t i = true
       ↔ ∃ tok ∈ toks, tok.toList <+: t.drop (i - tok.length) ∧ tok.length ≤ i ∧
           (i = tok.length
             ∨ ∃ c, t[i - tok.length - 1]? = some c ∧ isWordC c = false))
  ∧ (matchesAt (lookBehind (lastOps (toks.map lit))) t i = true
       ↔ ∃ tok ∈ toks, tok.toList <+: t.drop (i - tok.length) ∧ tok.length ≤ i ∧
           (i = tok.length
             ∨ ∃ c, t[i - tok.length - 1]? = some c ∧ isOperatorC c = false)) := by
  constructor
  · exact precededBy_characterization [Cls.word] isWordC
      (fun c => by simp [clsMatch, itemMatch, namedMatch, Cls.word]) toks t i hnl
  · exact precededBy_characterization TokSet.operator isOperatorC
      (fun c => by simp [clsMatch, isOperatorC]) toks t i hnl

/-- Witness for `lastWords_lastOps_assertion`: tokens `["end"]`, text
`"x end"`, position 5 (the end of the text). -/
theorem lastWords_lastOps_assertion_witness :
    ('\n' ∉ "x end".toList)
      ∧ ((matchesAt (lookBehind (lastWords (["end"].map lit))) "x end".toList 5 = true
           ↔ ∃ tok ∈ ["end"],
               tok.toList <+: "x end".toList.drop (5 - tok.length) ∧ tok.length ≤ 5 ∧
               (5 = tok.length
                 ∨ ∃ c, "x end".toList[5 - tok.length - 1]? = some c ∧ isWordC c = false))
        ∧ (matchesAt (lookBehind (lastOps (["end"].map lit))) "x end".toList 5 = true
           ↔ ∃ tok ∈ ["end"],
               tok.toList <+: "x end".toList.drop (5 - tok.length) ∧ tok.length ≤ 5 ∧
               (5 = tok.length
                 ∨ ∃ c, "x end".toList[5 - tok.length - 1]? = some c ∧ isOperatorC c = false))) :=
  ⟨by decide, lastWords_lastOps_assertion ["end"] "x end".toList 5 (by decide)⟩

/-!
### Repetition over a character class

All `*`/`+` uses in the repository repeat a single-character class, for
which the match relation is a run of class-satisfying characters.
-/

theorem mem_starIter_cls {t : List Char} {neg : Bool} {items : List CCItem}
    (fuel : Nat) {i j : Nat} :
    j ∈ starIter (mEnds t (.cls neg items)) fuel i
      ↔ i ≤ j ∧ j - i ≤ fuel
        ∧ ∀ k, i ≤ k → k < j → ∃ c, t[k]? = some c ∧ clsMatch neg items c = true := by
  induction fuel generalizing i with
  | zero =>
    simp only [starIter, List.mem_singleton]
    constructor
    · rintro rfl
      exact ⟨le_rfl, by omega, fun k hk1 hk2 => absurd (lt_of_le_of_lt hk1 hk2) (lt_irrefl _)⟩
    · rintro ⟨h1, h2, -⟩
      omega
  | succ fuel ih =>
    simp only [starIter, List.mem_cons, List.mem_flatMap]
    constructor
    · rintro (rfl | ⟨m, hm, hj⟩)
      · exact ⟨le_rfl, by omega, fun k hk1 hk2 => absurd (lt_of_le_of_lt hk1 hk2) (lt_irrefl _)⟩
      · rw [mem_mEnds_cls] at hm
        obtain ⟨c, hc, hcm, rfl⟩ := hm
        rw [if_pos (by omega)] at hj
        obtain ⟨h1, h2, hall⟩ := ih.mp hj
        refine ⟨by omega, by omega, fun k hk1 hk2 => ?_⟩
        rcases Nat.eq_or_lt_of_le hk1 with rfl | hik
        · exact ⟨c, hc, hcm⟩
        · exact hall k (by omega) hk2
    · rintro ⟨h1, h2, hall⟩
      rcases Nat.eq_or_lt_of_le h1 with rfl | hlt
      · exact Or.inl rfl
      · obtain ⟨c, hc, hcm⟩ := hall i le_rfl hlt
        refine Or.inr ⟨i + 1, mem_mEnds_cls.mpr ⟨c, hc, hcm, rfl⟩, ?_⟩
        rw [if_pos (by omega)]
        exact ih.mpr ⟨by omega, by omega, fun k hk1 hk2 => hall k (by omega) hk2⟩

theorem mem_mEnds_star_cls {t : List Char} {neg : Bool} {items : List CCItem} {i j : Nat} :
    j ∈ mEnds t (.star (.cls neg items)) i
      ↔ i ≤ j ∧ ∀ k, i ≤ k → k < j → ∃ c, t[k]? = some c ∧ clsMatch neg items c = true := by
  rw [mEnds_star, mem_starIter_cls]
  constructor
  · rintro ⟨h1, -, h3⟩
    exact ⟨h1, h3⟩
  · rintro ⟨h1, h3⟩
    refine ⟨h1, ?_, h3⟩
    rcases Nat.eq_or_lt_of_le h1 with rfl | hlt
    · omega
    · obtain ⟨c, hc, -⟩ := h3 (j - 1) (by omega) (by omega)
      have hb : j - 1 < t.length := (List.getElem?_eq_some.mp hc).1
      omega

theorem mem_mEnds_plus_cls {t : List Char} {neg : Bool} {items : List CCItem} {i j : Nat} :
    j ∈ mEnds t (.plus (.cls neg items)) i
      ↔ i < j ∧ ∀ k, i ≤ k → k < j → ∃ c, t[k]? = some c ∧ clsMatch neg items c = true := by
  rw [mEnds_plus]
  simp only [List.mem_flatMap]
  constructor
  · rintro ⟨m, hm, hj⟩
    rw [mem_mEnds_cls] at hm
    obtain ⟨c, hc, hcm, rfl⟩ := hm
    obtain ⟨h1, -, hall⟩ := (mem_starIter_cls _).mp hj
    refine ⟨by omega, fun k hk1 hk2 => ?_⟩
    rcases Nat.eq_or_lt_of_le hk1 with rfl | hik
    · exact ⟨c, hc, hcm⟩
    · exact hall k (by omega) hk2
  · rintro ⟨hlt, hall⟩
    obtain ⟨c, hc, hcm⟩ := hall i le_rfl hlt
    refine ⟨i + 1, mem_mEnds_cls.mpr ⟨c, hc, hcm, rfl⟩, (mem_starIter_cls _).mpr
      ⟨by omega, ?_, fun k hk1 hk2 => hall k (by omega) hk2⟩⟩
    rcases Nat.eq_or_lt_of_le (Nat.succ_le_of_lt hlt) with heq | hlt2
    · omega
    · obtain ⟨c2, hc2, -⟩ := hall (j - 1) (by omega) (by omega)
      have hb : j - 1 < t.length := (List.getElem?_eq_some.mp hc2).1
      omega

theorem clsMatch_wordRun (c : Char) : clsMatch true wordRunItems c = wordRunOK c := by
  simp only [clsMatch, wordRunItems, wordRunOK, List.any_cons, List.any_nil,
    itemMatch, escMatch]
  rcases isSpaceC c |>.eq_false_or_eq_true with h | h <;> simp_all [Bool.and_assoc]

theorem clsMatch_wordStart (c : Char) : clsMatch true wordStartItems c = wordStartOK c := by
  simp only [clsMatch, wordStartItems, wordStartOK, wordRunOK, List.any_cons, List.any_nil,
    itemMatch, escMatch]
  rcases isSpaceC c |>.eq_false_or_eq_true with h | h <;>
    rcases (c.isDigit).eq_false_or_eq_true with h2 | h2 <;> simp_all [Bool.and_assoc]

theorem clsMatch_nonspace (c : Char) : clsMatch true [CCItem.iEsc 's'] c = !isSpaceC c := by
  simp [clsMatch, itemMatch, escMatch]

/-- C9 (amended): the spans matched by `wordPattern` are exactly: a
backslash followed by one or more non-whitespace characters, or a nonempty
run of characters that are not backslash, whitespace, bracket, `#` or `.`
whose first character is additionally not a digit.  The regex being
greedy, the word selected at `i` is the longest such span, i.e. the
maximal run. -/
theorem wordPattern_matches (t : List Char) (i j : Nat) :
    j ∈ mEnds t wordPattern i
      ↔ (t[i]? = some '\\' ∧ i + 2 ≤ j
           ∧ ∀ k, i + 1 ≤ k → k < j → ∃ c, t[k]? = some c ∧ isSpaceC c = false)
        ∨ ((∃ c, t[i]? = some c ∧ wordStartOK c = true) ∧ i < j
           ∧ ∀ k, i + 1 ≤ k → k < j → ∃ c, t[k]? = some c ∧ wordRunOK c = true) := by
  rw [show wordPattern = .orr (.cat (.ch '\\') (.plus (.cls true [.iEsc 's'])))
       (.cat (.cls true wordStartItems) (.star (.cls true wordRunItems))) from rfl,
     mem_mEnds_orr]
  apply or_congr
  · rw [mem_mEnds_cat]
    constructor
    · rintro ⟨m, hm, hj⟩
      rw [mem_mEnds_ch] at hm
      obtain ⟨hc, rfl⟩ := hm
      rw [mem_mEnds_plus_cls] at hj
      obtain ⟨hlt, hall⟩ := hj
      refine ⟨hc, by omega, fun k hk1 hk2 => ?_⟩
      obtain ⟨c, hck, hcm⟩ := hall k hk1 hk2
      rw [clsMatch_nonspace] at hcm
      exact ⟨c, hck, by simpa using hcm⟩
    · rintro ⟨hc, hj2, hall⟩
      refine ⟨i + 1, mem_mEnds_ch.mpr ⟨hc, rfl⟩,
        mem_mEnds_plus_cls.mpr ⟨by omega, fun k hk1 hk2 => ?_⟩⟩
      obtain ⟨c, hck, hcm⟩ := hall k hk1 hk2
      exact ⟨c, hck, by rw [clsMatch_nonspace]; simpa using hcm⟩
  · rw [mem_mEnds_cat]
    constructor
    · rintro ⟨m, hm, hj⟩
      rw [mem_mEnds_cls] at hm
      obtain ⟨c, hc, hcm, rfl⟩ := hm
      rw [mem_mEnds_star_cls] at hj
      obtain ⟨hle, hall⟩ := hj
      rw [clsMatch_wordStart] at hcm
      refine ⟨⟨c, hc, hcm⟩, by omega, fun k hk1 hk2 => ?_⟩
      obtain ⟨c2, hck, hcm2⟩ := hall k hk1 hk2
      rw [clsMatch_wordRun] at hcm2
      exact ⟨c2, hck, hcm2⟩
    · rintro ⟨⟨c, hc, hst⟩, hlt, hall⟩
      refine ⟨i + 1, mem_mEnds_cls.mpr ⟨c, hc, by rw [clsMatch_wordStart]; exact hst, rfl⟩,
        mem_mEnds_star_cls.mpr ⟨by omega, fun k hk1 hk2 => ?_⟩⟩
      obtain ⟨c2, hck, hcm2⟩ := hall k hk1 hk2
      exact ⟨c2, hck, by rw [clsMatch_wordRun]; exact hcm2⟩

/-- C9 (counterexample): on the text `"7"` the span `[0, 1)` is a word by
the claim's description (a digit is none of the excluded characters), but
the produced pattern has no match at offset 0 at all, because its
first-character class also excludes digits. -/
theorem wordPattern_claim_counterexample :
    claimedWordSpan "7".toList 0 1 = true
      ∧ mEnds "7".toList wordPattern 0 = [] := by
  exact ⟨by decide, by decide⟩

theorem scanGo_chain (m : Matcher) (t : List Char) :
    ∀ (fuel i : Nat) (st : List Frame), i ≤ t.length → t.length ≤ fuel + i →
      chainB i (scanGo m t fuel i st) t.length := by
  intro fuel
  induction fuel with
  | zero =>
    intro i st h1 h2
    have : i = t.length := by omega
    simpa [scanGo, chainB]
  | succ fuel ih =>
    intro i st h1 h2
    by_cases hi : i < t.length
    · cases hm : m st i with
      | none =>
        rw [scanGo]
        simp only [if_pos hi, hm, chainB]
        exact ⟨by trivial, by simp, ih (i + 1) st (by omega) (by omega)⟩
      | some r =>
        obtain ⟨j, op, sc⟩ := r
        rw [scanGo]
        simp only [if_pos hi, hm]
        by_cases hj : i < j ∧ j ≤ t.length
        · rw [if_pos hj]
          simp only [chainB]
          exact ⟨by trivial, hj.1, ih j (applyOp op st) (by omega) (by omega)⟩
        · rw [if_neg hj]
          simp only [chainB]
          exact ⟨by trivial, by simp, ih (i + 1) st (by omega) (by omega)⟩
    · rw [scanGo]
      simp only [if_neg hi]
      have : i = t.length := by omega
      simpa [chainB]

theorem chainB_le : ∀ {l : List Token} {a b : Nat}, chainB a l b → a ≤ b := by
  intro l
  induction l with
  | nil => intro a b h; exact le_of_eq h
  | cons x rest ih =>
    intro a b h
    obtain ⟨hx, hlt, hrest⟩ := h
    have := ih hrest
    omega

theorem chainB_bounds : ∀ {l : List Token} {a b : Nat}, chainB a l b →
    ∀ tok ∈ l, a ≤ tok.start ∧ tok.start < tok.stop ∧ tok.stop ≤ b := by
  intro l
  induction l with
  | nil => intro a b h tok htok; simp at htok
  | cons x rest ih =>
    intro a b h tok htok
    obtain ⟨hx, hlt, hrest⟩ := h
    have hle := chainB_le hrest
    rcases List.mem_cons.mp htok with rfl | hmem
    · exact ⟨by omega, by omega, by omega⟩
    · have := ih hrest tok hmem
      exact ⟨by omega, this.2.1, this.2.2⟩

theorem chainB_pairwise : ∀ {l : List Token} {a b : Nat}, chainB a l b →
    l.Pairwise (fun x y => x.stop ≤ y.start ∧ x.start < y.start) := by
  intro l
  induction l with
  | nil => intro a b _; exact List.Pairwise.nil
  | cons x rest ih =>
    intro a b h
    obtain ⟨hx, hlt, hrest⟩ := h
    refine List.Pairwise.cons (fun y hy => ?_) (ih hrest)
    have hb := chainB_bounds hrest y hy
    exact ⟨hb.1, by omega⟩

theorem chainB_cover : ∀ {l : List Token} {a b : Nat}, chainB a l b →
    ∀ k, a ≤ k → k < b →
      ∃ tok ∈ l, (tok.start ≤ k ∧ k < tok.stop)
        ∧ ∀ tok' ∈ l, tok'.start ≤ k → k < tok'.stop → tok' = tok := by
  intro l
  induction l with
  | nil =>
    intro a b h k h1 h2
    simp only [chainB] at h
    omega
  | cons x rest ih =>
    intro a b h k h1 h2
    obtain ⟨hx, hlt, hrest⟩ := h
    by_cases hk : k < x.stop
    · refine ⟨x, List.mem_cons_self _ _, ⟨by omega, hk⟩, ?_⟩
      intro tok' htok' hs' he'
      rcases List.mem_cons.mp htok' with rfl | hmem
      · rfl
      · have hb := chainB_bounds hrest tok' hmem
        exact absurd hs' (by omega)
    · obtain ⟨tok, hmem, hcont, huniq⟩ := ih hrest k (by omega) h2
      refine ⟨tok, List.mem_cons_of_mem _ hmem, hcont, ?_⟩
      intro tok' htok' hs' he'
      rcases List.mem_cons.mp htok' with rfl | hmem'
      · exact absurd he' (by omega)
      · exact huniq tok' hmem' hs' he'

/-- C2 (modelled from the spec; the scanner is the editor-side consumer of
the grammar, not code of this repository): for every matcher — i.e. any
repository resolved through spec steps 1-2 — and every input text, one
full tokenization run partitions `[0, length)` exactly: every offset lies
in exactly one token range, the ranges are pairwise non-overlapping with
strictly ascending start offsets, and the ranges tile `[0, length)` with
no gaps (third conjunct).  The run is a total function — it terminates
because an offset where no rule consumes text advances by exactly one text
unit (`scanGo`'s fallback branch). -/
theorem scan_partition (m : Matcher) (t : List Char) :
    (∀ k, k < t.length →
       ∃ tok ∈ scan m t, (tok.start ≤ k ∧ k < tok.stop)
         ∧ ∀ tok' ∈ scan m t, tok'.start ≤ k → k < tok'.stop → tok' = tok)
  ∧ (scan m t).Pairwise (fun x y => x.stop ≤ y.start ∧ x.start < y.start)
  ∧ chainB 0 (scan m t) t.length := by
  have hchain : chainB 0 (scan m t) t.length :=
    scanGo_chain m t t.length 0 [] (by omega) (by omega)
  exact ⟨fun k hk => chainB_cover hchain k (by omega) hk,
         chainB_pairwise hchain, hchain⟩

/-- C8: the comment rule is a region from `(*` to `*)` whose nested
pattern list includes the comment rule itself; scanning
`"(* (* inner *) outer *)"` with it yields a token stream that covers the
whole string as one comment region — the region opened at offset 0 is
closed by the final `*)` at offsets 21-23, the inner `(* inner *)` opens
and closes a nested region at 3-5 / 12-14 without closing the outer one —
and every emitted token carries the comment scope and nothing else. -/
theorem comment_nested_scan :
    comment = .region commentBegin commentEnd (some Sco.COMMENT) [] [] [] [.incl "#comment"]
  ∧ (scan (commentMatcher "(* (* inner *) outer *)".toList)
        "(* (* inner *) outer *)".toList).map (fun tok => (tok.start, tok.stop))
      = [(0, 2), (2, 3), (3, 5), (5, 6), (6, 7), (7, 8), (8, 9), (9, 10), (10, 11),
         (11, 12), (12, 14), (14, 15), (15, 16), (16, 17), (17, 18), (18, 19),
         (19, 20), (20, 21), (21, 23)]
  ∧ ∀ tok ∈ scan (commentMatcher "(* (* inner *) outer *)".toList)
        "(* (* inner *) outer *)".toList,
      tok.scopes ≠ [] ∧ ∀ s ∈ tok.scopes, s = Sco.COMMENT := by
  refine ⟨rfl, by decide, by decide⟩

theorem splitNL_ne_nil (cs : List Char) : ∀ acc, splitNL acc cs ≠ [] := by
  induction cs with
  | nil => intro acc; simp [splitNL]
  | cons c rest ih =>
    intro acc
    rw [splitNL]
    split_ifs <;> simp [ih]

theorem joinNL_cons {p : List Char} {ps : List (List Char)} (h : ps ≠ []) :
    joinNL (p :: ps) = p ++ '\n' :: joinNL ps := by
  cases ps with
  | nil => exact absurd rfl h
  | cons q rest => rfl

theorem joinNL_splitNL (cs : List Char) : ∀ acc, joinNL (splitNL acc cs) = acc ++ cs := by
  induction cs with
  | nil => intro acc; simp [splitNL, joinNL]
  | cons c rest ih =>
    intro acc
    rw [splitNL]
    split_ifs with hc hw
    · subst hc
      rw [ih (acc ++ ['\n'])]
      simp
    · subst hc
      rw [joinNL_cons (splitNL_ne_nil rest []), ih []]
      simp
    · rw [ih (acc ++ [c])]
      simp

theorem splitNL_length (cs : List Char) :
    ∀ acc, (splitNL acc cs).length = bareNL cs + 1 := by
  induction cs with
  | nil => intro acc; simp [splitNL, bareNL]
  | cons c rest ih =>
    intro acc
    by_cases hc : c = '\n' <;> by_cases hw : nextIsWS rest = true <;>
      (simp [splitNL, bareNL, hc, hw, ih]; try omega)

theorem splitNL_first (cs : List Char) :
    ∀ acc, ∃ s, (splitNL acc cs).head? = some (acc ++ s) ∧ s <+: cs := by
  induction cs with
  | nil => intro acc; exact ⟨[], by simp [splitNL], List.nil_prefix⟩
  | cons c rest ih =>
    intro acc
    rw [splitNL]
    split_ifs with hc hw
    · obtain ⟨s, hs, hpre⟩ := ih (acc ++ [c])
      exact ⟨c :: s, by simpa using hs, by simpa [List.cons_prefix_cons] using hpre⟩
    · exact ⟨[], by simp, List.nil_prefix⟩
    · obtain ⟨s, hs, hpre⟩ := ih (acc ++ [c])
      exact ⟨c :: s, by simpa using hs, by simpa [List.cons_prefix_cons] using hpre⟩

/-- Every piece after the first starts with a non-whitespace character (or
is empty): pieces are cut exactly at newlines not followed by whitespace. -/
theorem splitNL_tail_heads (cs : List Char) :
    ∀ acc, ∀ p ∈ (splitNL acc cs).drop 1, ∀ c, p.head? = some c → isSpaceC c = false := by
  induction cs with
  | nil => intro acc p hp; simp [splitNL] at hp
  | cons c rest ih =>
    intro acc p hp cc hcc
    rw [splitNL] at hp
    split_ifs at hp with hc hw
    · exact ih (acc ++ [c]) p hp cc hcc
    · simp only [List.drop_one, List.tail_cons] at hp
      rcases hsp : splitNL [] rest with _ | ⟨q, tl⟩
      · exact absurd hsp (splitNL_ne_nil rest [])
      · rw [hsp] at hp
        rcases List.mem_cons.mp hp with rfl | hmem
        · obtain ⟨s, hs, hpre⟩ := splitNL_first rest []
          rw [hsp] at hs
          simp only [List.head?_cons, Option.some.injEq, List.nil_append] at hs
          subst hs
          cases p with
          | nil => simp at hcc
          | cons s0 stl =>
            simp only [List.head?_cons, Option.some.injEq] at hcc
            subst hcc
            cases rest with
            | nil => simp at hpre
            | cons r0 rtl =>
              rw [List.cons_prefix_cons] at hpre
              obtain ⟨rfl, -⟩ := hpre
              simpa [nextIsWS] using hw
        · have hmem2 : p ∈ (splitNL [] rest).drop 1 := by
            rw [hsp]; simpa using hmem
          exact ih [] p hmem2 cc hcc
    · exact ih (acc ++ [c]) p hp cc hcc

/-- C6 (counterexample): the claim reads the transducer as splitting the
*buffered stream* at newlines not followed by whitespace, for every way
the stream is chunked.  The split regex is applied per chunk and cannot
look across a chunk boundary: streaming `"x\n y\n- "` as the two chunks
`"x\n"` and `" y\n- "` emits the batch `["x", " y"]` — the indented
continuation line is detached — whereas the same stream fed as one chunk
emits `["x\n y"]`, the batch the claim requires for every chunking. -/
theorem transducer_chunk_boundary_counterexample :
    (feedAll ["x\n".toList, " y\n- ".toList]).2 = [["x".toList, " y".toList]]
  ∧ (feedAll ["x\n y\n- ".toList]).2 = [["x\n y".toList]]
  ∧ (splitFeed "x\n y\n- ".toList).dropLast = ["x\n y".toList]
  ∧ [["x".toList, " y".toList]] ≠ [["x\n y".toList]] := by
  refine ⟨by decide, by decide, by decide, by decide⟩

/-- C6 (amended): per fed chunk, the transducer splits the chunk at each
newline not immediately followed by a whitespace character *within that
chunk* (a newline at the end of a chunk always splits): the pieces
reassemble to the chunk, there is one more piece than there are such
newlines, and every piece after the first starts with a non-whitespace
character or is empty (continuation lines within a chunk stay attached).
The pieces are absorbed into the line/pending buffers, and the batch is
emitted — resetting both buffers — exactly when the remaining pending
fragment equals the idle prompt marker `"- "`. -/
theorem transducer_feed_amended :
    (∀ data, joinNL (splitFeed data) = data)
  ∧ (∀ data, splitFeed data ≠ [])
  ∧ (∀ data, (splitFeed data).length = bareNL data + 1)
  ∧ (∀ data, ∀ p ∈ (splitFeed data).drop 1, ∀ c, p.head? = some c → isSpaceC c = false)
  ∧ (∀ st data, ((feed st data).2 ≠ none
       ↔ (absorb st.lines st.pendingLine (splitFeed data)).2 = "- ".toList))
  ∧ (∀ st data out, (feed st data).2 = some out →
       (feed st data).1 = TState.mk [] []
         ∧ out = (absorb st.lines st.pendingLine (splitFeed data)).1) := by
  refine ⟨fun data => joinNL_splitNL data [],
         fun data => splitNL_ne_nil data [],
         fun data => splitNL_length data [],
         fun data => splitNL_tail_heads data [],
         fun st data => ?_, fun st data out => ?_⟩
  · unfold feed
    dsimp only
    split_ifs with h
    · simp [h]
    · simpa using h
  · intro hout
    unfold feed at hout ⊢
    dsimp only at hout ⊢
    split_ifs at hout ⊢ with h
    simp only [Option.some.injEq] at hout
    exact ⟨rfl, hout.symm⟩

/-- C5: start positions convert 1-based to 0-based (third conjunct, and
visible in both evaluations), and the spec's example line converts to the
0-based range (2,9)-(2,14) (first conjunct).  But the end position does
not default to the start position *only* when the `-endLine.endCol` part
is absent: `parseInt(...) - 1 || startChar` also hits the falsy converted
value 0, so for the present end position `2.1` of the second conjunct the
end column defaults to the start column, yielding (0,4)-(1,4) where the
claim requires (0,4)-(1,0). -/
theorem diagnostic_conversion_bug :
    diagnose "foo.sml:3.10-3.15 Error: type mismatch\n  expected: int\n  found: string".toList
      = some ("foo.sml".toList, ⟨2, 9, 2, 14⟩,
              "type mismatch\n  expected: int\n  found: string".toList)
  ∧ diagnose "foo.sml:1.5-2.1 Error: m".toList
      = some ("foo.sml".toList, ⟨0, 4, 1, 4⟩, "m".toList)
  ∧ (∀ m : DiagMatch, m.endPart = none →
       (convertMatch m).endLine = (convertMatch m).startLine
         ∧ (convertMatch m).endChar = (convertMatch m).startChar) := by
  refine ⟨by decide, by decide, fun m hm => ?_⟩
  simp [convertMatch, hm]

theorem collateGo_acc (uriParse : List Char → Option (List Char)) (rootPath : List Char)
    (response : List (List Char)) :
    ∀ acc, collateGo uriParse rootPath acc response
      = acc ++ collate uriParse rootPath response := by
  induction response with
  | nil => intro acc; simp [collate, collateGo]
  | cons line rest ih =>
    intro acc
    rw [collate, collateGo, collateGo]
    cases hd : diagMatch line with
    | none => rw [ih acc, ih []]; simp
    | some m =>
      cases hu : uriParse (uriString rootPath m.path) with
      | none =>
        simp only [hu]
        rw [ih acc, ih []]
        simp
      | some uri =>
        simp only [hu]
        rw [ih, ih]
        simp

/-- C7: during collation of one batch, a line that does not match the
diagnostic pattern contributes nothing (first conjunct), a matching line
whose path fails to parse as a uri drops only its own diagnostic (second
conjunct), and in every case the whole batch is still processed: the
collated result is exactly the per-line contributions of the surviving
diagnostics, in order (third conjunct). -/
theorem collation_error_recovery (uriParse : List Char → Option (List Char))
    (rootPath : List Char) (line : List Char) (lines : List (List Char)) :
    (diagMatch line = none →
       collate uriParse rootPath (line :: lines) = collate uriParse rootPath lines)
  ∧ (∀ m, diagMatch line = some m →
       uriParse (uriString rootPath m.path) = none →
       collate uriParse rootPath (line :: lines) = collate uriParse rootPath lines)
  ∧ (∀ response, collate uriParse rootPath response
       = response.filterMap (fun l =>
           (processLine uriParse rootPath l).map (fun d => (d.1, [(d.2.1, d.2.2)])))) := by
  refine ⟨fun h => ?_, fun m hm hu => ?_, fun response => ?_⟩
  · simp [collate, collateGo, h]
  · simp [collate, collateGo, hm, hu]
  · induction response with
    | nil => simp [collate, collateGo]
    | cons l rest ih =>
      have hcr : collateGo uriParse rootPath [] rest = collate uriParse rootPath rest := rfl
      rw [collate, collateGo]
      cases hd : diagMatch l with
      | none =>
        simp only [List.filterMap_cons, processLine, hd]
        exact hcr.trans ih
      | some m =>
        cases hu : uriParse (uriString rootPath m.path) with
        | none =>
          simp only [hu, List.filterMap_cons, processLine, hd]
          exact hcr.trans ih
        | some uri =>
          simp only [hu, List.filterMap_cons, processLine, hd]
          rw [collateGo_acc]
          simp [ih, processLine]
